import Mathlib

/-!
Verification of the Text Normalization & Error-Scoring Engine of
`CVJobMatcher/CV_Language_score.py` via a shallow embedding in Lean.

Python strings are modelled as `List Char`; Python floats are modelled as
rationals (the claimed score properties do not depend on rounding); Python's
ASCII-relevant character classes (`\w`, `\s`, `[a-z]`, `str.lower`,
`str.strip`) are modelled over their ASCII behaviour, which is where the
program and every concrete test input live.
-/

namespace CVScore

abbrev Str := List Char

/-- ASCII word character, modelling the `\w` class used by the regexes. -/
def isWordChar (c : Char) : Bool := c.isAlphanum || c == '_'

/-- Whitespace, modelling the `\s` class (space, tab, LF, CR, VT, FF). -/
def isSpaceChar (c : Char) : Bool :=
  c == ' ' || c == '\t' || c == '\n' || c == '\x0d' || c == '\x0b' || c == '\x0c'

/-- Lowercase ASCII letter, modelling the `[a-z]` class of `strip_noise`. -/
def isLowerAlpha (c : Char) : Bool := 'a' ≤ c && c ≤ 'z'

/-- The character class `[\d\-\s\(\)]` of the phone-number regex. -/
def isPhoneMid (c : Char) : Bool :=
  c.isDigit || c == '-' || isSpaceChar c || c == '(' || c == ')'

/-- Models `str.lower` (ASCII case folding, which covers this program's data). -/
def pyLower (s : Str) : Str := s.map Char.toLower

/-- Drop the longest suffix of characters satisfying `p`. -/
def dropEndWhile (p : Char → Bool) (s : Str) : Str :=
  (s.reverse.dropWhile p).reverse

/-- Models `str.strip()`: drop whitespace from both ends. -/
def pyStrip (s : Str) : Str :=
  dropEndWhile isSpaceChar (s.dropWhile isSpaceChar)

/-! ## Normalizer (`normalize_text`, lines 65–80) -/

/-- Partial model of `unicodedata.normalize("NFKC", ·)`: a character-wise
decomposition of the five fb-ligature glyphs and the identity elsewhere.  Real
NFKC additionally performs other compatibility foldings and canonical
composition and is not character-wise; this model is exact on ASCII text and
on the ligature glyphs, and the theorems below invoke it only on that
domain. -/
def nfkcMap (c : Char) : Str :=
  if c == '\ufb00' then ['f', 'f']
  else if c == '\ufb01' then ['f', 'i']
  else if c == '\ufb02' then ['f', 'l']
  else if c == '\ufb03' then ['f', 'f', 'i']
  else if c == '\ufb04' then ['f', 'f', 'l']
  else [c]

def nfkc (s : Str) : Str := (s.map nfkcMap).flatten

/-- The `LIG_MAP` table applied by `str.translate` (line 70): the five Unicode
ligatures plus the two private-use fallback glyphs. -/
def ligMap (c : Char) : Str :=
  if c == '\ufb00' then ['f', 'f']
  else if c == '\ufb01' then ['f', 'i']
  else if c == '\ufb02' then ['f', 'l']
  else if c == '\ufb03' then ['f', 'f', 'i']
  else if c == '\ufb04' then ['f', 'f', 'l']
  else if c == '\uf001' then ['f', 'i']
  else if c == '\uf002' then ['f', 'l']
  else [c]

def translateLig (s : Str) : Str := (s.map ligMap).flatten

/-- Soft hyphen, zero-width space, byte-order mark (lines 72–74). -/
def isInvisible (c : Char) : Bool :=
  c == '\u00ad' || c == '\u200b' || c == '\ufeff'

/-- The three successive `str.replace(ch, "")` calls, i.e. a filter. -/
def removeInvisible (s : Str) : Str := s.filter (fun c => !(isInvisible c))

/-- One attempt of the tail of the pattern `(\w)-\s*\n(\w)` at the text right
after a word character: the head must be `-`, then (by greedy backtracking of
`\s*` followed by a mandatory `\n`) the maximal whitespace run must be
nonempty and end with a newline, and the next character must be a word
character.  Returns that word character together with the remaining text
(the regex engine resumes scanning after the whole match). -/
def hyphenTail : Str → Option (Char × Str)
  | '-' :: t =>
    let r := t.takeWhile isSpaceChar
    let t' := t.dropWhile isSpaceChar
    if r ≠ [] ∧ r.getLast? = some '\n' then
      match t' with
      | d :: rest => if isWordChar d then some (d, rest) else none
      | [] => none
    else none
  | _ => none

/-- Fuelled scanner for `re.sub(r"(\w)-\s*\n(\w)", r"\1-\2", s)` (line 79):
leftmost match, replacement `\1-\2`, scanning resumes after the match. -/
def unwrapF : Nat → Str → Str
  | 0, s => s
  | _ + 1, [] => []
  | f + 1, c :: rest =>
    if isWordChar c then
      match hyphenTail rest with
      | some (d, rest') => c :: '-' :: d :: unwrapF f rest'
      | none => c :: unwrapF f rest
    else c :: unwrapF f rest

def unwrap (s : Str) : Str := unwrapF s.length s

/-- `normalize_text` (lines 65–80): NFKC, ligature translation, invisible
character removal, then line-break-hyphen unwrapping. -/
def normalize_text (s : Str) : Str :=
  unwrap (removeInvisible (translateLig (nfkc s)))

/-! ## Noise stripping (`strip_noise`, lines 82–89) -/

/-- Fuelled scanner for `re.sub(r"\S+@\S+", " ", text)` (line 85).  An attempt
at a non-space position succeeds exactly when the maximal non-space run from
there has an `@` at an interior position (at least one non-space character on
each side); by greediness of the trailing `\S+` the whole run is consumed. -/
def emailSubF : Nat → Str → Str
  | 0, s => s
  | _ + 1, [] => []
  | f + 1, c :: rest =>
    if isSpaceChar c then c :: emailSubF f rest
    else
      let run := c :: rest.takeWhile (fun d => !(isSpaceChar d))
      if ((run.drop 1).dropLast).contains '@' then
        ' ' :: emailSubF f (rest.drop (run.length - 1))
      else c :: emailSubF f rest

def emailSub (s : Str) : Str := emailSubF s.length s

/-- One attempt of `https?://\S+` at a position: a literal `https://` or
`http://` followed by at least one non-space character; the trailing `\S+` is
greedy, so the match extends to the end of the non-space run.  Returns the
remaining text after the match. -/
def urlTry (s : Str) : Option Str :=
  let tail (t : Str) : Option Str :=
    let run := t.takeWhile (fun d => !(isSpaceChar d))
    if run = [] then none else some (t.drop run.length)
  match s with
  | 'h' :: 't' :: 't' :: 'p' :: 's' :: ':' :: '/' :: '/' :: t => tail t
  | 'h' :: 't' :: 't' :: 'p' :: ':' :: '/' :: '/' :: t => tail t
  | _ => none

/-- Fuelled scanner for `re.sub(r"https?://\S+", " ", text)` (line 86). -/
def urlSubF : Nat → Str → Str
  | 0, s => s
  | _ + 1, [] => []
  | f + 1, c :: rest =>
    match urlTry (c :: rest) with
    | some rest' => ' ' :: urlSubF f rest'
    | none => c :: urlSubF f rest

def urlSub (s : Str) : Str := urlSubF s.length s

/-- Greatest index `j ≥ 6` of a digit in `run` — the backtracking point of the
greedy `[\d\-\s\(\)]{6,}` followed by a mandatory final `\d`. -/
def lastDigitIdxFrom6 (run : Str) : Option Nat :=
  ((List.range run.length).filter
    (fun j => decide (6 ≤ j) && (run.getD j ' ').isDigit)).getLast?

/-- One attempt of `\+?\d[\d\-\s\(\)]{6,}\d` at a position (after the optional
leading `+` has been taken by `phoneTry`): a digit, then at least six
characters of the middle class, then a final digit; greedy backtracking picks
the last qualifying digit inside the maximal middle-class run.  Returns the
remaining text after the match. -/
def phoneCore (s : Str) : Option Str :=
  match s with
  | d :: t =>
    if d.isDigit then
      match lastDigitIdxFrom6 (t.takeWhile isPhoneMid) with
      | some j => some (t.drop (j + 1))
      | none => none
    else none
  | [] => none

/-- `\+?` is greedy: if the position holds a `+` the only viable branch
consumes it (a bare `\d` can never match `+`). -/
def phoneTry (s : Str) : Option Str :=
  match s with
  | '+' :: t => phoneCore t
  | _ => phoneCore s

/-- Fuelled scanner for `re.sub(r"\+?\d[\d\-\s\(\)]{6,}\d", " ", text)`
(line 87). -/
def phoneSubF : Nat → Str → Str
  | 0, s => s
  | _ + 1, [] => []
  | f + 1, c :: rest =>
    match phoneTry (c :: rest) with
    | some rest' => ' ' :: phoneSubF f rest'
    | none => c :: phoneSubF f rest

def phoneSub (s : Str) : Str := phoneSubF s.length s

/-- Line-break characters recognized by `str.splitlines` that can occur in
this pipeline's data (LF, CR, VT, FF; CRLF is treated as a single break). -/
def isLineBreak (c : Char) : Bool :=
  c == '\n' || c == '\x0d' || c == '\x0b' || c == '\x0c'

/-- Core of `str.splitlines`: plain split on line breaks, yielding one piece
more than the number of breaks (a possible trailing empty piece is dropped by
`splitLines`, as Python does). -/
def splitLinesCore : Str → List Str
  | [] => [[]]
  | '\x0d' :: '\n' :: rest => [] :: splitLinesCore rest
  | c :: rest =>
    if isLineBreak c then [] :: splitLinesCore rest
    else
      match splitLinesCore rest with
      | l :: ls => (c :: l) :: ls
      | [] => [[c]]

/-- Models `str.splitlines()`: empty text has no lines, and a trailing line
break does not produce a trailing empty line. -/
def splitLines (s : Str) : List Str :=
  if s = [] then []
  else
    let ls := splitLinesCore s
    if ls.getLast? = some [] then ls.dropLast else ls

/-- Models `"\n".join(lines)`: the lines concatenated with a single newline
between consecutive lines. -/
def joinNL : List Str → Str
  | [] => []
  | [l] => l
  | l :: ls => l ++ '\n' :: joinNL ls

/-- `strip_noise` (lines 82–89): normalize, blank out emails, URLs and
phone-number runs, then keep only the lines containing a lowercase ASCII
letter, joined back with newlines. -/
def strip_noise (s : Str) : Str :=
  let t := phoneSub (urlSub (emailSub (normalize_text s)))
  joinNL ((splitLines t).filter (fun ln => ln.any isLowerAlpha))

/-! ## Issue filter & scorer (`compute_language_score`, lines 137–172) -/

/-- One raw match from the external checker.  Optional Python attributes get
their `getattr` fallbacks: a missing `ruleId` is `none`, a missing
`errorLength` is `0` (the code's `or 0`), a missing `context` is `[]`. -/
structure IssueMatch where
  offset : Nat
  errorLength : Nat
  ruleId : Option Str
  context : Str
  message : Str
  replacements : List Str
  ruleIssueType : Str
deriving DecidableEq, Repr

/-- The `IGNORE_RULES` set (lines 24–30). -/
def IGNORE_RULES : List Str :=
  [ "WHITESPACE_RULE".data
  , "COMMA_PARENTHESIS_WHITESPACE".data
  , "PUNCTUATION_PARAGRAPH_END".data
  , "UPPERCASE_SENTENCE_START".data
  , "HYPHENATION".data ]

/-- `getattr(m, "ruleId", None) in IGNORE_RULES` (line 144). -/
def matchIgnored (m : IssueMatch) : Bool :=
  match m.ruleId with
  | some r => IGNORE_RULES.contains r
  | none => false

/-- The flagged snippet as the code computes it (lines 148–153): the stripped
slice `text[offset:offset+errorLength]` when a length is present, else the
stripped context if nonempty, else the stripped slice
`text[offset:offset+40]`.  Python slices clamp at the text bounds. -/
def codeSnippet (text : Str) (m : IssueMatch) : Str :=
  if m.errorLength ≠ 0 then pyStrip ((text.drop m.offset).take m.errorLength)
  else
    let c := pyStrip m.context
    if c ≠ [] then c else pyStrip ((text.drop m.offset).take 40)

/-- The flagged snippet in the words of the specification (§4.3 step 2): the
raw substring at `[offset, offset+length)` when `length > 0`, else the
checker context, else the 40 characters from `offset` — with no whitespace
stripping. -/
def specSnippet (text : Str) (m : IssueMatch) : Str :=
  if m.errorLength > 0 then (text.drop m.offset).take m.errorLength
  else if m.context ≠ [] then m.context
  else (text.drop m.offset).take 40

/-- The filtering loop (lines 142–159): drop ignored rules, drop matches whose
lowercased snippet is in the allow-list, keep `(snippet, match)` pairs. -/
def filterMatches (text : Str) (allow : List Str) (ms : List IssueMatch) :
    List (Str × IssueMatch) :=
  ms.filterMap (fun m =>
    if matchIgnored m then none
    else if allow.contains (pyLower (codeSnippet text m)) then none
    else some (codeSnippet text m, m))

/-- Stable ascending insertion by offset, modelling Python's stable
`list.sort(key=offset)` (line 162). -/
def insertErr (p : Str × IssueMatch) :
    List (Str × IssueMatch) → List (Str × IssueMatch)
  | [] => [p]
  | q :: qs =>
    if p.2.offset ≤ q.2.offset then p :: q :: qs else q :: insertErr p qs

def sortErrors : List (Str × IssueMatch) → List (Str × IssueMatch)
  | [] => []
  | p :: ps => insertErr p (sortErrors ps)

/-- The ordered issue list produced by the filter stage. -/
def orderedIssues (text : Str) (allow : List Str) (ms : List IssueMatch) :
    List (Str × IssueMatch) :=
  sortErrors (filterMatches text allow ms)

/-- Fuelled scanner for `re.findall(r"\w+", text)`: the list of maximal word
character runs, in order. -/
def findallWordsF : Nat → Str → List Str
  | 0, _ => []
  | _ + 1, [] => []
  | f + 1, c :: rest =>
    if isWordChar c then
      (c :: rest.takeWhile isWordChar) :: findallWordsF f (rest.dropWhile isWordChar)
    else findallWordsF f rest

def findallWords (s : Str) : List Str := findallWordsF s.length s

/-- `wc = len(re.findall(r"\w+", text))` (lines 164–165). -/
def wordCount (s : Str) : Nat := (findallWords s).length

/-- `err_per_100 = (len(errors) / wc * 100) if wc else 0` (line 166), with
Python floats modelled as rationals. -/
def errorsPer100 (errCount wc : Nat) : ℚ :=
  if wc ≠ 0 then (errCount : ℚ) / (wc : ℚ) * 100 else 0

/-- `ERROR_WEIGHT` (line 21). -/
def ERROR_WEIGHT : ℚ := 5

/-- `score = max(0.0, 100.0 - (ERROR_WEIGHT * err_per_100))` (line 167). -/
def qualityScore (e : ℚ) : ℚ := max 0 (100 - ERROR_WEIGHT * e)

/-! ## Position mapper & reporter (lines 93–125) -/

/-- Forward scan computing `text.rfind("\n", 0, idx)`: the index of the last
newline among the first `idx` characters, or `-1`. -/
def rfindNlAux : Str → Nat → Int → Int
  | [], _, acc => acc
  | c :: cs, i, acc => rfindNlAux cs (i + 1) (if c == '\n' then (i : Int) else acc)

def pyRfindNl (text : Str) (idx : Nat) : Int := rfindNlAux (text.take idx) 0 (-1)

/-- `text.count("\n", 0, idx)`. -/
def pyCountNl (text : Str) (idx : Nat) : Nat := (text.take idx).count '\n'

/-- `_idx_to_line_col` (lines 93–97): 1-based line and column.  The column is
`idx - (last_nl + 1) + 1 = idx - last_nl`, as an integer exactly as the code
computes it. -/
def idx_to_line_col (text : Str) (idx : Nat) : Nat × Int :=
  (pyCountNl text idx + 1, (idx : Int) - pyRfindNl text idx)

/-- `line_start = text.rfind("\n", 0, offset) + 1` (line 116). -/
def lineStartAt (text : Str) (offset : Nat) : Nat :=
  (pyRfindNl text offset + 1).toNat

/-- `line_end = text.find("\n", offset)`, with `-1` replaced by `len(text)`
(lines 117–119). -/
def lineEndAt (text : Str) (offset : Nat) : Nat :=
  match (text.drop offset).findIdx? (fun c => c == '\n') with
  | some k => offset + k
  | none => text.length

/-- `line_text = text[line_start:line_end].rstrip("\r\n")` (line 120);
Python slices clamp, and `rstrip("\r\n")` drops trailing CR/LF characters. -/
def renderLine (text : Str) (offset : Nat) : Str :=
  dropEndWhile (fun c => c == '\x0d' || c == '\n')
    ((text.take (lineEndAt text offset)).drop (lineStartAt text offset))

/-- `caret = " " * (offset - line_start) + "^" * max(1, err_len)` (line 124). -/
def renderCaret (text : Str) (offset errLen : Nat) : Str :=
  List.replicate (offset - lineStartAt text offset) ' '
    ++ List.replicate (max 1 errLen) '^'

/-! ## Lemmas about the stable sort -/

lemma mem_insertErr (a p : Str × IssueMatch) (l : List (Str × IssueMatch)) :
    a ∈ insertErr p l ↔ a = p ∨ a ∈ l := by
  induction l with
  | nil => simp [insertErr]
  | cons q qs ih =>
    by_cases h : p.2.offset ≤ q.2.offset
    · simp [insertErr, h]
    · simp [insertErr, h, ih]
      tauto

lemma mem_sortErrors (a : Str × IssueMatch) (l : List (Str × IssueMatch)) :
    a ∈ sortErrors l ↔ a ∈ l := by
  induction l with
  | nil => simp [sortErrors]
  | cons p ps ih => simp [sortErrors, mem_insertErr, ih]

lemma insertErr_pairwise (p : Str × IssueMatch) (l : List (Str × IssueMatch))
    (hl : l.Pairwise (fun a b => a.2.offset ≤ b.2.offset)) :
    (insertErr p l).Pairwise (fun a b => a.2.offset ≤ b.2.offset) := by
  induction l with
  | nil => simp [insertErr]
  | cons q qs ih =>
    rcases List.pairwise_cons.mp hl with ⟨hq, hqs⟩
    by_cases h : p.2.offset ≤ q.2.offset
    · simp only [insertErr, if_pos h]
      refine List.pairwise_cons.mpr ⟨?_, hl⟩
      intro b hb
      rcases List.mem_cons.mp hb with hb | hb
      · exact hb ▸ h
      · exact le_trans h (hq b hb)
    · simp only [insertErr, if_neg h]
      refine List.pairwise_cons.mpr ⟨?_, ih hqs⟩
      intro b hb
      rcases (mem_insertErr b p qs).mp hb with hb | hb
      · exact hb ▸ le_of_lt (lt_of_not_le h)
      · exact hq b hb

lemma sortErrors_pairwise (l : List (Str × IssueMatch)) :
    (sortErrors l).Pairwise (fun a b => a.2.offset ≤ b.2.offset) := by
  induction l with
  | nil => simp [sortErrors]
  | cons p ps ih => exact insertErr_pairwise p (sortErrors ps) ih

lemma filter_insertErr (p : Str × IssueMatch) (l : List (Str × IssueMatch))
    (k : Nat) :
    (insertErr p l).filter (fun q => q.2.offset == k)
      = if p.2.offset == k then p :: l.filter (fun q => q.2.offset == k)
        else l.filter (fun q => q.2.offset == k) := by
  induction l with
  | nil =>
    by_cases hp : (p.2.offset == k) = true <;>
      simp [insertErr, List.filter_cons, hp]
  | cons q qs ih =>
    simp only [insertErr]
    by_cases h : p.2.offset ≤ q.2.offset
    · rw [if_pos h]
      by_cases hp : (p.2.offset == k) = true <;> simp [List.filter_cons, hp]
    · rw [if_neg h]
      by_cases hp : (p.2.offset == k) = true
      · have hq : (q.2.offset == k) = false := by
          have h1 : q.2.offset < p.2.offset := lt_of_not_le h
          have h2 : p.2.offset = k := by simpa using hp
          simp only [beq_eq_false_iff_ne, ne_eq]
          omega
        simp [List.filter_cons, hq, ih, hp]
      · simp [List.filter_cons, ih, hp]

lemma filter_sortErrors (l : List (Str × IssueMatch)) (k : Nat) :
    (sortErrors l).filter (fun q => q.2.offset == k)
      = l.filter (fun q => q.2.offset == k) := by
  induction l with
  | nil => simp [sortErrors]
  | cons p ps ih =>
    simp only [sortErrors, filter_insertErr, List.filter_cons, ih]

/-! ## Word runs: the spec-side count of maximal word-character runs -/

/-- Spec-side count of maximal word-character runs: the number of positions
holding a word character whose predecessor (or the virtual predecessor flag
`b` at position 0) is not a word character. -/
def runStartCount (b : Bool) (t : Str) : Nat :=
  (List.range t.length).countP (fun i =>
    isWordChar (t.getD i ' ')
      && !(if i = 0 then b else isWordChar (t.getD (i - 1) ' ')))

lemma runStartCount_cons (b : Bool) (c : Char) (t : Str) :
    runStartCount b (c :: t)
      = (if isWordChar c && !b then 1 else 0) + runStartCount (isWordChar c) t := by
  unfold runStartCount
  rw [List.length_cons, List.range_succ_eq_map, List.countP_cons, List.countP_map]
  have hpt : ∀ i ∈ List.range t.length,
      ((fun i => isWordChar ((c :: t).getD i ' ')
          && !(if i = 0 then b else isWordChar ((c :: t).getD (i - 1) ' ')))
        ∘ Nat.succ) i = true
      ↔ (fun i => isWordChar (t.getD i ' ')
          && !(if i = 0 then isWordChar c else isWordChar (t.getD (i - 1) ' '))) i
          = true := by
    intro i _
    cases i with
    | zero => simp [Function.comp, List.getD_cons_succ, List.getD_cons_zero]
    | succ j => simp [Function.comp, List.getD_cons_succ]
  rw [List.countP_congr hpt]
  simp [List.getD_cons_zero, Nat.add_comm]

lemma runStartCount_true_dropWhile (t : Str) :
    runStartCount true t = runStartCount false (t.dropWhile isWordChar) := by
  induction t with
  | nil => rfl
  | cons c t ih =>
    by_cases hc : isWordChar c = true
    · rw [List.dropWhile_cons_of_pos hc, runStartCount_cons]
      simp [hc, ih]
    · rw [List.dropWhile_cons_of_neg (by simp [hc]), runStartCount_cons,
        runStartCount_cons]
      simp [Bool.not_eq_true _ ▸ hc]

lemma findallWordsF_length (f : Nat) :
    ∀ s : Str, s.length ≤ f → (findallWordsF f s).length = runStartCount false s := by
  induction f with
  | zero =>
    intro s hs
    have h : s = [] := List.length_eq_zero.mp (Nat.le_zero.mp hs)
    subst h
    rfl
  | succ f ih =>
    intro s hs
    cases s with
    | nil => rfl
    | cons c rest =>
      by_cases hc : isWordChar c = true
      · have hlen : (rest.dropWhile isWordChar).length ≤ f := by
          have h1 : (rest.dropWhile isWordChar).length ≤ rest.length :=
            (List.dropWhile_sublist _).length_le
          have h2 : rest.length ≤ f := Nat.le_of_succ_le_succ hs
          omega
        simp only [findallWordsF, hc, if_true, List.length_cons]
        rw [ih _ hlen, runStartCount_cons]
        simp [hc, runStartCount_true_dropWhile]
        omega
      · have hlen : rest.length ≤ f := Nat.le_of_succ_le_succ hs
        simp only [findallWordsF, hc, Bool.false_eq_true, if_false]
        rw [ih _ hlen, runStartCount_cons]
        simp [hc]

lemma wordCount_eq_runStartCount (s : Str) :
    wordCount s = runStartCount false s :=
  findallWordsF_length s.length s le_rfl

/-! ## Lemmas about the position mapper -/

/-- Spec-side "index of the last newline before `idx`, or `-1`": the greatest
element of the positions below `idx` holding a newline. -/
def lastNlSpec (text : Str) (idx : Nat) : Int :=
  match ((List.range idx).filter (fun j => text.getD j ' ' == '\n')).getLast? with
  | some j => (j : Int)
  | none => -1

lemma rfindNlAux_append (l : Str) (c : Char) :
    ∀ (i : Nat) (acc : Int),
      rfindNlAux (l ++ [c]) i acc
        = if c == '\n' then ((i + l.length : Nat) : Int)
          else rfindNlAux l i acc := by
  induction l with
  | nil =>
    intro i acc
    by_cases hc : (c == '\n') = true <;> simp [rfindNlAux, hc]
  | cons d l ih =>
    intro i acc
    show rfindNlAux (l ++ [c]) (i + 1) (if d == '\n' then (i : Int) else acc) = _
    rw [ih]
    by_cases hc : (c == '\n') = true
    · rw [if_pos hc, if_pos hc]
      congr 1
      simp only [List.length_cons]
      omega
    · rw [if_neg hc, if_neg hc]
      rfl

lemma pyRfindNl_eq_spec (text : Str) :
    ∀ idx, idx ≤ text.length → pyRfindNl text idx = lastNlSpec text idx := by
  intro idx
  induction idx with
  | zero => intro _; rfl
  | succ n ih =>
    intro h
    have hn : n < text.length := Nat.lt_of_succ_le h
    have htake : text.take (n + 1) = text.take n ++ [text[n]] := by
      rw [List.take_succ, List.getElem?_eq_getElem hn]
      rfl
    have hlen : (text.take n).length = n := by
      rw [List.length_take]
      omega
    have hget : text.getD n ' ' = text[n] := List.getD_eq_getElem text ' ' hn
    unfold pyRfindNl
    rw [htake, rfindNlAux_append, hlen]
    unfold lastNlSpec
    rw [List.range_succ, List.filter_append]
    by_cases hc : (text[n] == '\n') = true
    · have hfil : (List.filter (fun j => text.getD j ' ' == '\n') [n]) = [n] := by
        simp [List.filter_singleton, List.getElem?_eq_getElem hn, hc]
      rw [if_pos hc, hfil, List.getLast?_concat]
      simp
    · have hfil : (List.filter (fun j => text.getD j ' ' == '\n') [n]) = [] := by
        simp [List.filter_singleton, List.getElem?_eq_getElem hn, hc]
      rw [if_neg hc, hfil, List.append_nil]
      exact (ih (Nat.le_of_succ_le h)).trans rfl

lemma pyCountNl_eq_spec (text : Str) :
    ∀ idx, idx ≤ text.length →
      pyCountNl text idx
        = ((List.range idx).filter (fun j => text.getD j ' ' == '\n')).length := by
  intro idx
  induction idx with
  | zero => intro _; rfl
  | succ n ih =>
    intro h
    have hn : n < text.length := Nat.lt_of_succ_le h
    have htake : text.take (n + 1) = text.take n ++ [text[n]] := by
      rw [List.take_succ, List.getElem?_eq_getElem hn]
      rfl
    have hget : text.getD n ' ' = text[n] := List.getD_eq_getElem text ' ' hn
    unfold pyCountNl
    rw [htake, List.count_append, List.range_succ, List.filter_append,
      List.length_append]
    have hc := ih (Nat.le_of_succ_le h)
    unfold pyCountNl at hc
    rw [hc]
    by_cases hcn : (text[n] == '\n') = true <;>
      simp [List.count_cons, List.filter_singleton,
        List.getElem?_eq_getElem hn, hcn]

/-- The accumulator scan only moves forward: starting strictly below `i`, the
result stays strictly below `i` plus the number of scanned characters. -/
lemma rfindNlAux_lt (l : Str) :
    ∀ (i : Nat) (acc : Int), acc < i → rfindNlAux l i acc < i + l.length := by
  induction l with
  | nil =>
    intro i acc hacc
    simpa [rfindNlAux] using hacc.trans_le (by omega)
  | cons c cs ih =>
    intro i acc hacc
    simp only [rfindNlAux, List.length_cons]
    have h1 : (if c == '\n' then (i : Int) else acc) < (i + 1 : Nat) := by
      by_cases hc : (c == '\n') = true
      · simp [hc]
      · simp only [hc, Bool.false_eq_true, if_false]
        push_cast
        omega
    have := ih (i + 1) _ h1
    have harith : ((i + 1 : Nat) : Int) + cs.length = i + (cs.length + 1) := by
      push_cast
      ring
    omega

lemma neg_one_le_rfindNlAux (l : Str) :
    ∀ (i : Nat) (acc : Int), -1 ≤ acc → -1 ≤ rfindNlAux l i acc := by
  induction l with
  | nil => intro i acc hacc; simpa [rfindNlAux] using hacc
  | cons c cs ih =>
    intro i acc hacc
    simp only [rfindNlAux]
    apply ih
    by_cases hc : (c == '\n') = true <;> simp [hc] <;> omega

lemma lineStartAt_le (text : Str) (offset : Nat) :
    lineStartAt text offset ≤ offset ∧ lineStartAt text offset ≤ text.length := by
  have h1 : pyRfindNl text offset < (0 : Int) + (text.take offset).length :=
    rfindNlAux_lt _ 0 (-1) (by omega)
  have h2 : (text.take offset).length = min offset text.length :=
    List.length_take _ _
  unfold lineStartAt
  constructor <;> rw [Int.toNat_le] <;> omega

lemma findIdx?_go_lt {p : Char → Bool} :
    ∀ (l : Str) (i k : Nat), List.findIdx? p l i = some k → k < i + l.length := by
  intro l
  induction l with
  | nil => intro i k h; cases h
  | cons c cs ih =>
    intro i k h
    rw [List.findIdx?_cons] at h
    by_cases hc : p c = true
    · rw [if_pos hc] at h
      injection h with h
      simp only [List.length_cons]
      omega
    · rw [if_neg hc] at h
      have := ih (i + 1) k h
      simp only [List.length_cons]
      omega

lemma findIdx?_some_lt {p : Char → Bool} {l : Str} {k : Nat}
    (h : l.findIdx? p = some k) : k < l.length := by
  have := findIdx?_go_lt l 0 k h
  omega

lemma lineEndAt_le (text : Str) (offset : Nat) :
    lineEndAt text offset ≤ text.length := by
  unfold lineEndAt
  cases hf : (text.drop offset).findIdx? (fun c => c == '\n') with
  | none => simp
  | some k =>
    have hk := findIdx?_some_lt hf
    rw [List.length_drop] at hk
    show offset + k ≤ text.length
    omega

lemma lineStartAt_le_lineEndAt (text : Str) (offset : Nat) :
    lineStartAt text offset ≤ lineEndAt text offset := by
  have hs := lineStartAt_le text offset
  unfold lineEndAt
  cases hf : (text.drop offset).findIdx? (fun c => c == '\n') with
  | none => simpa using hs.2
  | some k =>
    show lineStartAt text offset ≤ offset + k
    omega

/-- Splitting off the stripped trailing run: `dropEndWhile` keeps a prefix. -/
lemma dropEndWhile_append (p : Char → Bool) (l : Str) :
    dropEndWhile p l ++ (l.reverse.takeWhile p).reverse = l := by
  unfold dropEndWhile
  rw [← List.reverse_append, List.takeWhile_append_dropWhile, List.reverse_reverse]

/-! ## Lemmas about the normalizer -/

/-- A character left fixed by every character-level pass of the normalizer. -/
def cleanChar (c : Char) : Prop :=
  nfkcMap c = [c] ∧ ligMap c = [c] ∧ isInvisible c = false

lemma nfkc_id_of_clean {t : Str} (h : ∀ d ∈ t, cleanChar d) : nfkc t = t := by
  induction t with
  | nil => rfl
  | cons c t ih =>
    have hc := (h c (List.mem_cons_self c t)).1
    have ht := ih (fun d hd => h d (List.mem_cons_of_mem c hd))
    unfold nfkc at ht ⊢
    simp only [List.map_cons, List.flatten_cons, hc, ht]
    rfl

lemma translateLig_id_of_clean {t : Str} (h : ∀ d ∈ t, cleanChar d) :
    translateLig t = t := by
  induction t with
  | nil => rfl
  | cons c t ih =>
    have hc := (h c (List.mem_cons_self c t)).2.1
    have ht := ih (fun d hd => h d (List.mem_cons_of_mem c hd))
    unfold translateLig at ht ⊢
    simp only [List.map_cons, List.flatten_cons, hc, ht]
    rfl

lemma removeInvisible_id_of_clean {t : Str} (h : ∀ d ∈ t, cleanChar d) :
    removeInvisible t = t := by
  unfold removeInvisible
  rw [List.filter_eq_self]
  intro a ha
  simp [(h a ha).2.2]

lemma hyphenTail_mem {r : Str} {d : Char} {rest' : Str}
    (h : hyphenTail r = some (d, rest')) :
    '-' ∈ r ∧ d ∈ r ∧ ∀ x ∈ rest', x ∈ r := by
  unfold hyphenTail at h
  split at h
  case _ t =>
    simp only [ne_eq] at h
    split_ifs at h with hcond
    split at h
    case _ d0 rest0 heq =>
      split_ifs at h with hw
      injection h with h
      injection h with h1 h2
      subst h1
      subst h2
      refine ⟨List.mem_cons_self _ _, ?_, ?_⟩
      · apply List.mem_cons_of_mem
        apply (List.dropWhile_sublist isSpaceChar).subset
        rw [heq]
        exact List.mem_cons_self _ _
      · intro x hx
        apply List.mem_cons_of_mem
        apply (List.dropWhile_sublist isSpaceChar).subset
        rw [heq]
        exact List.mem_cons_of_mem _ hx
    case _ => exact Option.noConfusion h
  case _ => exact Option.noConfusion h

lemma mem_unwrapF (f : Nat) :
    ∀ (s : Str) (d : Char), d ∈ unwrapF f s → d ∈ s := by
  induction f with
  | zero => intro s d hd; exact hd
  | succ f ih =>
    intro s d hd
    cases s with
    | nil => cases hd
    | cons c rest =>
      by_cases hc : isWordChar c = true
      · simp only [unwrapF, hc, if_true] at hd
        cases hh : hyphenTail rest with
        | some p =>
          rcases p with ⟨d0, rest0⟩
          rw [hh] at hd
          rcases hyphenTail_mem hh with ⟨hdash, hd0, hsub⟩
          rcases List.mem_cons.mp hd with rfl | hd
          · exact List.mem_cons_self _ _
          rcases List.mem_cons.mp hd with rfl | hd
          · exact List.mem_cons_of_mem _ hdash
          rcases List.mem_cons.mp hd with rfl | hd
          · exact List.mem_cons_of_mem _ hd0
          · exact List.mem_cons_of_mem _ (hsub d (ih rest0 d hd))
        | none =>
          rw [hh] at hd
          rcases List.mem_cons.mp hd with rfl | hd
          · exact List.mem_cons_self _ _
          · exact List.mem_cons_of_mem _ (ih rest d hd)
      · simp only [unwrapF, hc, Bool.false_eq_true, if_false] at hd
        rcases List.mem_cons.mp hd with rfl | hd
        · exact List.mem_cons_self _ _
        · exact List.mem_cons_of_mem _ (ih rest d hd)

lemma mem_unwrap {s : Str} {d : Char} (hd : d ∈ unwrap s) : d ∈ s :=
  mem_unwrapF s.length s d hd

/-! ## Word characters are untouched by the character-level passes -/

lemma beq_false_of_ne {a x : Char} (h : a ≠ x) : (a == x) = false := by
  simp [h]

lemma ne_of_wordChar {a x : Char} (h : isWordChar a = true)
    (hx : isWordChar x = false) : a ≠ x := by
  intro hax
  subst hax
  rw [h] at hx
  cases hx

lemma wordChar_clean {a : Char} (h : isWordChar a = true) : cleanChar a := by
  have hne : ∀ x : Char, isWordChar x = false → (a == x) = false := fun x hx =>
    beq_false_of_ne (ne_of_wordChar h hx)
  have e1 := hne '\ufb00' (by decide)
  have e2 := hne '\ufb01' (by decide)
  have e3 := hne '\ufb02' (by decide)
  have e4 := hne '\ufb03' (by decide)
  have e5 := hne '\ufb04' (by decide)
  have e6 := hne '' (by decide)
  have e7 := hne '' (by decide)
  have i1 := hne '\u00ad' (by decide)
  have i2 := hne '\u200b' (by decide)
  have i3 := hne '\ufeff' (by decide)
  refine ⟨?_, ?_, ?_⟩
  · simp [nfkcMap, e1, e2, e3, e4, e5]
  · simp [ligMap, e1, e2, e3, e4, e5, e6, e7]
  · simp [isInvisible, i1, i2, i3]

lemma wordChar_not_space {a : Char} (h : isWordChar a = true) :
    isSpaceChar a = false := by
  have hne : ∀ x : Char, isWordChar x = false → (a == x) = false := fun x hx =>
    beq_false_of_ne (ne_of_wordChar h hx)
  have s1 := hne ' ' (by decide)
  have s2 := hne '\t' (by decide)
  have s3 := hne '\n' (by decide)
  have s4 := hne '\x0d' (by decide)
  have s5 := hne '\x0b' (by decide)
  have s6 := hne '\x0c' (by decide)
  simp [isSpaceChar, s1, s2, s3, s4, s5, s6]

/-! ## ASCII text is untouched by the character-level passes -/

/-- ASCII character (code point below 128).  NFKC, the ligature table and the
invisible-character removal are all the identity on ASCII text. -/
def isAsciiChar (c : Char) : Bool := c.toNat < 128

lemma ne_of_ascii {a x : Char} (h : isAsciiChar a = true)
    (hx : isAsciiChar x = false) : a ≠ x := by
  intro hax
  subst hax
  rw [h] at hx
  cases hx

lemma ascii_clean {a : Char} (h : isAsciiChar a = true) : cleanChar a := by
  have hne : ∀ x : Char, isAsciiChar x = false → (a == x) = false := fun x hx =>
    beq_false_of_ne (ne_of_ascii h hx)
  have e1 := hne '\ufb00' (by decide)
  have e2 := hne '\ufb01' (by decide)
  have e3 := hne '\ufb02' (by decide)
  have e4 := hne '\ufb03' (by decide)
  have e5 := hne '\ufb04' (by decide)
  have e6 := hne '' (by decide)
  have e7 := hne '' (by decide)
  have i1 := hne '\u00ad' (by decide)
  have i2 := hne '\u200b' (by decide)
  have i3 := hne '\ufeff' (by decide)
  refine ⟨?_, ?_, ?_⟩
  · simp [nfkcMap, e1, e2, e3, e4, e5]
  · simp [ligMap, e1, e2, e3, e4, e5, e6, e7]
  · simp [isInvisible, i1, i2, i3]

/-- On ASCII documents the character-level passes are the identity, so the
Normalizer reduces to the hyphen-unwrap pass alone. -/
lemma normalize_ascii {s : Str} (h : ∀ c ∈ s, isAsciiChar c = true) :
    normalize_text s = unwrap s := by
  have hc : ∀ c ∈ s, cleanChar c := fun c hcs => ascii_clean (h c hcs)
  unfold normalize_text
  rw [nfkc_id_of_clean hc, translateLig_id_of_clean hc,
    removeInvisible_id_of_clean hc]

/-- The hyphen-unwrap pass on the minimal pattern: a word character, a hyphen,
a newline and a word character collapse to word-hyphen-word. -/
lemma normalize_word_hyphen (a b : Char) (ha : isWordChar a = true)
    (hb : isWordChar b = true) :
    normalize_text [a, '-', '\n', b] = [a, '-', b] := by
  have hAll : ∀ d ∈ [a, '-', '\n', b], cleanChar d := by
    intro d hd
    rcases List.mem_cons.mp hd with rfl | hd
    · exact wordChar_clean ha
    rcases List.mem_cons.mp hd with rfl | hd
    · exact ⟨by decide, by decide, by decide⟩
    rcases List.mem_cons.mp hd with rfl | hd
    · exact ⟨by decide, by decide, by decide⟩
    rcases List.mem_cons.mp hd with rfl | hd
    · exact wordChar_clean hb
    · cases hd
  have hsb : isSpaceChar b = false := wordChar_not_space hb
  unfold normalize_text
  rw [nfkc_id_of_clean hAll, translateLig_id_of_clean hAll,
    removeInvisible_id_of_clean hAll]
  show unwrapF 4 [a, '-', '\n', b] = [a, '-', b]
  have hsn : isSpaceChar '\n' = true := by decide
  have hht : hyphenTail ['-', '\n', b] = some (b, []) := by
    unfold hyphenTail
    simp [List.takeWhile_cons, List.dropWhile_cons, hsn, hsb, hb]
  simp only [unwrapF, ha, if_true, hht]

/-! ## Lemmas about line splitting and joining -/

lemma splitLinesCore_cons_of_not_break {c : Char} (hc : isLineBreak c = false)
    (l : Str) :
    splitLinesCore (c :: l)
      = match splitLinesCore l with
        | l' :: ls => (c :: l') :: ls
        | [] => [[c]] := by
  rw [splitLinesCore.eq_def]
  split
  · rename_i heq
    cases heq
  · rename_i rest heq
    injection heq with h1 h2
    subst h1
    cases hc
  · rename_i c' rest hpat heq
    injection heq with h1 h2
    subst h1
    subst h2
    rw [if_neg (by simp [hc])]

lemma splitLinesCore_ne_nil (s : Str) : splitLinesCore s ≠ [] := by
  induction s using splitLinesCore.induct with
  | case1 => simp [splitLinesCore]
  | case2 rest ih => simp [splitLinesCore]
  | case3 c rest hpat hbrk ih =>
    rw [splitLinesCore.eq_def]
    split
    · rename_i heq
      cases heq
    · simp
    · rename_i c' r hpat' heq
      injection heq with h1 h2
      subst h1
      subst h2
      rw [if_pos hbrk]
      simp
  | case4 c rest hpat hbrk l ls heq ih =>
    rw [splitLinesCore_cons_of_not_break (by simpa using hbrk), heq]
    simp
  | case5 c rest hpat hbrk heq ih =>
    rw [splitLinesCore_cons_of_not_break (by simpa using hbrk), heq]
    simp

lemma mem_splitLinesCore_no_break (s : Str) :
    ∀ ln ∈ splitLinesCore s, ∀ c ∈ ln, isLineBreak c = false := by
  induction s using splitLinesCore.induct with
  | case1 =>
    intro ln hln c hc
    simp only [splitLinesCore, List.mem_singleton] at hln
    subst hln
    cases hc
  | case2 rest ih =>
    intro ln hln c hc
    simp only [splitLinesCore, List.mem_cons] at hln
    rcases hln with rfl | hln
    · cases hc
    · exact ih ln hln c hc
  | case3 c0 rest hpat hbrk ih =>
    intro ln hln c hc
    rw [splitLinesCore.eq_def] at hln
    split at hln
    · rename_i heq
      cases heq
    · rename_i r heq
      injection heq with h1 h2
      exact (hpat r h1 h2).elim
    · rename_i c' r hpat' heq
      injection heq with h1 h2
      subst h1
      subst h2
      rw [if_pos hbrk] at hln
      rcases List.mem_cons.mp hln with rfl | hln
      · cases hc
      · exact ih ln hln c hc
  | case4 c0 rest hpat hbrk l ls heq ih =>
    intro ln hln c hc
    rw [splitLinesCore_cons_of_not_break (by simpa using hbrk), heq] at hln
    rcases List.mem_cons.mp hln with rfl | hln
    · rcases List.mem_cons.mp hc with rfl | hc
      · simpa using hbrk
      · exact ih l (heq ▸ List.mem_cons_self l ls) c hc
    · exact ih ln (heq ▸ List.mem_cons_of_mem l hln) c hc
  | case5 c0 rest hpat hbrk heq ih =>
    intro ln hln c hc
    rw [splitLinesCore_cons_of_not_break (by simpa using hbrk), heq] at hln
    simp only [List.mem_singleton] at hln
    subst hln
    rcases List.mem_cons.mp hc with rfl | hc
    · simpa using hbrk
    · cases hc

lemma splitLinesCore_single {ln : Str}
    (h : ∀ c ∈ ln, isLineBreak c = false) : splitLinesCore ln = [ln] := by
  induction ln with
  | nil => rfl
  | cons c l ih =>
    rw [splitLinesCore_cons_of_not_break (h c (List.mem_cons_self c l)),
      ih (fun d hd => h d (List.mem_cons_of_mem c hd))]

lemma splitLinesCore_append_line {ln : Str}
    (h : ∀ c ∈ ln, isLineBreak c = false) (t : Str) :
    splitLinesCore (ln ++ '\n' :: t) = ln :: splitLinesCore t := by
  induction ln with
  | nil =>
    show splitLinesCore ('\n' :: t) = [] :: splitLinesCore t
    rfl
  | cons c l ih =>
    rw [List.cons_append,
      splitLinesCore_cons_of_not_break (h c (List.mem_cons_self c l)),
      ih (fun d hd => h d (List.mem_cons_of_mem c hd))]



lemma splitLinesCore_join :
    ∀ ls : List Str, ls ≠ [] →
      (∀ ln ∈ ls, ∀ c ∈ ln, isLineBreak c = false) →
      splitLinesCore (joinNL ls) = ls := by
  intro ls
  induction ls with
  | nil => intro h; cases h rfl
  | cons ln ls ih =>
    intro _ h
    cases ls with
    | nil =>
      show splitLinesCore (joinNL [ln]) = [ln]
      exact splitLinesCore_single (h ln (List.mem_cons_self ln []))
    | cons ln2 ls2 =>
      show splitLinesCore (ln ++ '\n' :: joinNL (ln2 :: ls2)) = ln :: ln2 :: ls2
      rw [splitLinesCore_append_line (h ln (List.mem_cons_self _ _)),
        ih (by simp) (fun l hl c hc => h l (List.mem_cons_of_mem ln hl) c hc)]

lemma splitLines_join (ls : List Str)
    (h : ∀ ln ∈ ls, ln ≠ [] ∧ ∀ c ∈ ln, isLineBreak c = false) :
    splitLines (joinNL ls) = ls := by
  cases ls with
  | nil => rfl
  | cons ln ls =>
    have hnb : ∀ l ∈ ln :: ls, ∀ c ∈ l, isLineBreak c = false :=
      fun l hl => (h l hl).2
    have hcore : splitLinesCore (joinNL (ln :: ls)) = ln :: ls :=
      splitLinesCore_join (ln :: ls) (by simp) hnb
    have hlast : (ln :: ls).getLast? ≠ some ([] : Str) := by
      intro hcon
      have hx : ([] : Str) ∈ (ln :: ls).getLast? := hcon
      rcases List.mem_getLast?_eq_getLast hx with ⟨hh, hEq⟩
      have hmem : ([] : Str) ∈ ln :: ls := by
        rw [hEq]
        exact List.getLast_mem hh
      exact (h [] hmem).1 rfl
    have hne : joinNL (ln :: ls) ≠ [] := by
      have h1 : ln ≠ [] := (h ln (List.mem_cons_self _ _)).1
      cases ls with
      | nil =>
        show joinNL [ln] ≠ []
        exact h1
      | cons ln2 ls2 =>
        show ln ++ '\n' :: joinNL (ln2 :: ls2) ≠ []
        simp
    unfold splitLines
    rw [if_neg hne, hcore, if_neg (by simpa using hlast)]

lemma any_lower_ne_nil {ln : Str} (h : ln.any isLowerAlpha = true) : ln ≠ [] := by
  intro hcon
  subst hcon
  cases h

lemma lower_not_break {c : Char} (h : isLowerAlpha c = true) :
    isLineBreak c = false := by
  unfold isLowerAlpha at h
  unfold isLineBreak
  have h1 := (Bool.and_eq_true _ _).mp h
  have hle : 'a' ≤ c := of_decide_eq_true h1.1
  have hb : ∀ x : Char, x < 'a' → (c == x) = false := by
    intro x hx
    apply beq_false_of_ne
    intro hcx
    subst hcx
    exact absurd hle (not_le.mpr hx)
  rw [hb '\n' (by decide), hb '\x0d' (by decide), hb '\x0b' (by decide),
    hb '\x0c' (by decide)]
  rfl

/-- The line decomposition of `strip_noise`'s output: exactly the lines of the
substituted, normalized text that contain a lowercase ASCII letter, in their
original order. -/
lemma lines_strip_noise (s : Str) :
    splitLines (strip_noise s)
      = (splitLines (phoneSub (urlSub (emailSub (normalize_text s))))).filter
          (fun ln => ln.any isLowerAlpha) := by
  unfold strip_noise
  apply splitLines_join
  intro ln hln
  have hmem := List.mem_filter.mp hln
  have hany : ln.any isLowerAlpha = true := hmem.2
  refine ⟨any_lower_ne_nil hany, ?_⟩
  intro c hc
  have hline := hmem.1
  unfold splitLines at hline
  by_cases hnil : phoneSub (urlSub (emailSub (normalize_text s))) = []
  · rw [if_pos hnil] at hline
    cases hline
  · rw [if_neg hnil] at hline
    by_cases hl :
        (splitLinesCore (phoneSub (urlSub (emailSub (normalize_text s))))).getLast?
          = some ([] : Str)
    · rw [if_pos hl] at hline
      have : ln ∈ splitLinesCore (phoneSub (urlSub (emailSub (normalize_text s)))) :=
        (List.dropLast_sublist _).subset hline
      exact mem_splitLinesCore_no_break _ ln this c hc
    · rw [if_neg hl] at hline
      exact mem_splitLinesCore_no_break _ ln hline c hc



/-! ## Lemmas about the phone-number substitution -/

lemma lastDigitIdxFrom6_none {run : Str} (h : run.length ≤ 6) :
    lastDigitIdxFrom6 run = none := by
  unfold lastDigitIdxFrom6
  have hfil : (List.range run.length).filter
      (fun j => decide (6 ≤ j) && (run.getD j ' ').isDigit) = [] := by
    rw [List.filter_eq_nil_iff]
    intro j hj
    have hjlt := List.mem_range.mp hj
    have : ¬(6 ≤ j) := by omega
    simp [this]
  rw [hfil]
  rfl

lemma digit_isPhoneMid {c : Char} (h : c.isDigit = true) : isPhoneMid c = true := by
  simp [isPhoneMid, h]

lemma phoneCore_short_digits {s : Str} (hall : ∀ c ∈ s, c.isDigit = true)
    (hlen : s.length ≤ 7) : phoneCore s = none := by
  cases s with
  | nil => rfl
  | cons d t =>
    simp only [phoneCore]
    rw [if_pos (hall d (List.mem_cons_self d t))]
    have ht : t.takeWhile isPhoneMid = t :=
      List.takeWhile_eq_self_iff.mpr
        (fun c hc => digit_isPhoneMid (hall c (List.mem_cons_of_mem d hc)))
    rw [ht, lastDigitIdxFrom6_none (by simpa using Nat.le_of_succ_le_succ hlen)]

lemma phoneTry_short_digits {s : Str} (hall : ∀ c ∈ s, c.isDigit = true)
    (hlen : s.length ≤ 7) : phoneTry s = none := by
  rw [phoneTry.eq_def]
  split
  · exact absurd (hall '+' (List.mem_cons_self _ _)) (by decide)
  · exact phoneCore_short_digits hall hlen

lemma phoneSubF_short_digits (f : Nat) :
    ∀ s : Str, (∀ c ∈ s, c.isDigit = true) → s.length ≤ 7 →
      phoneSubF f s = s := by
  induction f with
  | zero => intro s _ _; rfl
  | succ f ih =>
    intro s hall hlen
    cases s with
    | nil => rfl
    | cons c rest =>
      simp only [phoneSubF]
      rw [phoneTry_short_digits hall hlen]
      rw [ih rest (fun d hd => hall d (List.mem_cons_of_mem c hd))
        (by simp at hlen ⊢; omega)]

/-- A run of at most seven digits is left untouched by the phone-number
substitution. -/
lemma phoneSub_short_digits {s : Str} (hall : ∀ c ∈ s, c.isDigit = true)
    (hlen : s.length ≤ 7) : phoneSub s = s :=
  phoneSubF_short_digits s.length s hall hlen

lemma lastDigitIdxFrom6_concat {mid : Str} {e : Char} (he : e.isDigit = true)
    (hlen : 6 ≤ mid.length) :
    lastDigitIdxFrom6 (mid ++ [e]) = some mid.length := by
  unfold lastDigitIdxFrom6
  have hlen2 : (mid ++ [e]).length = mid.length + 1 := by simp
  rw [hlen2, List.range_succ, List.filter_append]
  have hpe : ((mid ++ [e]).getD mid.length ' ') = e := by
    rw [List.getD_eq_getElem _ _ (by simp)]
    exact List.getElem_concat_length mid e mid.length rfl _
  have hfe : List.filter
      (fun j => decide (6 ≤ j) && ((mid ++ [e]).getD j ' ').isDigit)
      [mid.length] = [mid.length] := by
    simp [List.filter_singleton, hpe, he, hlen]
  rw [hfe, List.getLast?_concat]

lemma phoneTry_token {d e : Char} {mid : Str} (hd : d.isDigit = true)
    (he : e.isDigit = true) (hmid : ∀ c ∈ mid, isPhoneMid c = true)
    (hlen : 6 ≤ mid.length) :
    phoneTry (d :: (mid ++ [e])) = some [] := by
  have hplus : d ≠ '+' := by
    intro hcon
    subst hcon
    cases hd
  rw [phoneTry.eq_def]
  split
  · rename_i t heq
    injection heq with h1 h2
    exact (hplus h1).elim
  · simp only [phoneCore]
    rw [if_pos hd]
    have ht : (mid ++ [e]).takeWhile isPhoneMid = mid ++ [e] := by
      rw [List.takeWhile_eq_self_iff]
      intro c hc
      rcases List.mem_append.mp hc with hc | hc
      · exact hmid c hc
      · rcases List.mem_singleton.mp hc with rfl
        exact digit_isPhoneMid he
    rw [ht, lastDigitIdxFrom6_concat he hlen]
    have hdrop : (mid ++ [e]).drop (mid.length + 1) = [] := by
      have hl : (mid ++ [e]).length = mid.length + 1 := by simp
      rw [← hl, List.drop_length]
    show some ((mid ++ [e]).drop (mid.length + 1)) = some []
    rw [hdrop]

/-- A full phone-shaped token — digit, at least six middle-class characters,
final digit — is replaced by a single space. -/
lemma phoneSub_token {d e : Char} {mid : Str} (hd : d.isDigit = true)
    (he : e.isDigit = true) (hmid : ∀ c ∈ mid, isPhoneMid c = true)
    (hlen : 6 ≤ mid.length) :
    phoneSub (d :: (mid ++ [e])) = [' '] := by
  unfold phoneSub
  have hlen2 : (d :: (mid ++ [e])).length = (mid.length + 1) + 1 := by simp
  rw [hlen2]
  simp only [phoneSubF]
  rw [phoneTry_token hd he hmid hlen]
  show ' ' :: phoneSubF (mid.length + 1) [] = [' ']
  rfl


/-! ## Lemmas about the filter -/

lemma mem_filterMatches {text : Str} {allow : List Str} {ms : List IssueMatch}
    {p : Str × IssueMatch} (hp : p ∈ filterMatches text allow ms) :
    p.2 ∈ ms ∧ matchIgnored p.2 = false
      ∧ p.1 = codeSnippet text p.2
      ∧ allow.contains (pyLower (codeSnippet text p.2)) = false := by
  unfold filterMatches at hp
  rcases List.mem_filterMap.mp hp with ⟨m, hm, hf⟩
  by_cases h1 : matchIgnored m = true
  · rw [if_pos h1] at hf
    cases hf
  · rw [if_neg h1] at hf
    by_cases h2 : allow.contains (pyLower (codeSnippet text m)) = true
    · rw [if_pos h2] at hf
      cases hf
    · rw [if_neg h2] at hf
      injection hf with hf
      subst hf
      exact ⟨hm, Bool.not_eq_true _ ▸ h1, rfl,
        Bool.not_eq_true _ ▸ h2⟩


/-! ## Claim theorems -/

/-- C1: the scorer computes `wordCount` as the number of maximal runs of the
word pattern in the cleaned text, `errorsPer100Words = errorCount / wordCount
* 100` when `wordCount > 0` and `0` when `wordCount = 0`, and `qualityScore =
max(0, 100 - 5 * errorsPer100Words)`; the score is never negative and equals
100 whenever `wordCount = 0`, and the spec's floor example `wordCount = 10`,
`errorCount = 100` evaluates to density 1000 and score 0. -/
theorem claim_C1_score_formula (text : Str) (errs : List (Str × IssueMatch)) :
    wordCount text = runStartCount false text
    ∧ (wordCount text ≠ 0 →
        errorsPer100 errs.length (wordCount text)
          = (errs.length : ℚ) / (wordCount text : ℚ) * 100)
    ∧ (wordCount text = 0 → errorsPer100 errs.length (wordCount text) = 0)
    ∧ 0 ≤ qualityScore (errorsPer100 errs.length (wordCount text))
    ∧ (wordCount text = 0 →
        qualityScore (errorsPer100 errs.length (wordCount text)) = 100)
    ∧ errorsPer100 100 10 = 1000 ∧ qualityScore 1000 = 0
    ∧ errorsPer100 4 200 = 2 ∧ qualityScore 2 = 90 := by
  refine ⟨wordCount_eq_runStartCount text, ?_, ?_, ?_, ?_, ?_, ?_, ?_, ?_⟩
  · intro h
    simp [errorsPer100, h]
  · intro h
    simp [errorsPer100, h]
  · exact le_max_left 0 _
  · intro h
    norm_num [errorsPer100, h, qualityScore, ERROR_WEIGHT]
  · norm_num [errorsPer100]
  · norm_num [qualityScore, ERROR_WEIGHT]
  · norm_num [errorsPer100]
  · norm_num [qualityScore, ERROR_WEIGHT]

/-- A minimal checker match used by concrete instantiations. -/
def m0 : IssueMatch := ⟨0, 0, none, [], [], [], []⟩

/-- C1 witness: at the empty cleaned text (word count 0) and a five-element
issue list, the quality score is exactly 100. -/
theorem claim_C1_witness :
    qualityScore (errorsPer100
      (List.replicate 5 (([], m0) : Str × IssueMatch)).length
      (wordCount ([] : Str))) = 100 :=
  (claim_C1_score_formula [] (List.replicate 5 ([], m0))).2.2.2.2.1 (by decide)

/-- C2 counterexample: the match whose spec-defined flagged snippet "ab "
case-insensitively matches the allow-list entry "ab " is nevertheless kept in
`orderedIssues`, because the code strips the snippet before the allow-list
lookup.  -/
def mC2 : IssueMatch := ⟨0, 3, some "R".data, [], [], [], []⟩

theorem claim_C2_counterexample :
    (["ab ".data] : List Str).contains (pyLower (specSnippet "ab ".data mC2))
        = true
    ∧ (orderedIssues "ab ".data ["ab ".data] [mC2]).map Prod.snd = [mC2] :=
  ⟨by decide, by decide⟩

/-- C2 amended: if the match's flagged snippet, after stripping surrounding
whitespace and lowercasing (exactly as the code computes it), is an element of
the allow-list, then the match is excluded from `orderedIssues`, regardless of
its `ruleId`. -/
theorem claim_C2_amended (text : Str) (allow : List Str) (ms : List IssueMatch)
    (m : IssueMatch)
    (hm : allow.contains (pyLower (codeSnippet text m)) = true) :
    ∀ p ∈ orderedIssues text allow ms, p.2 ≠ m := by
  intro p hp hpm
  have hmem := (mem_sortErrors p (filterMatches text allow ms)).mp hp
  have hfalse := (mem_filterMatches hmem).2.2.2
  rw [hpm, hm] at hfalse
  cases hfalse

def textC2 : Str := "Sehr gut".data

def mC2a : IssueMatch := ⟨0, 4, none, [], [], [], []⟩

def mC2b : IssueMatch := ⟨5, 3, none, [], [], [], []⟩

/-- C2 witness: with text "Sehr gut", allow-list {"sehr"} and two matches, the
allow-listed match mC2a is excluded, so the sole retained pair is not it. -/
theorem claim_C2_witness :
    (("gut".data, mC2b) : Str × IssueMatch).2 ≠ mC2a :=
  claim_C2_amended textC2 ["sehr".data] [mC2a, mC2b] mC2a (by decide)
    ("gut".data, mC2b) (by decide)

/-- C3: `orderedIssues` is sorted ascending by offset (pairwise), and the sort
is stable: for every offset value, the retained pairs with that offset appear
in exactly their original relative order. -/
theorem claim_C3_ordering (text : Str) (allow : List Str)
    (ms : List IssueMatch) :
    (orderedIssues text allow ms).Pairwise
        (fun p q => p.2.offset ≤ q.2.offset)
    ∧ ∀ k : Nat,
        (orderedIssues text allow ms).filter (fun q => q.2.offset == k)
          = (filterMatches text allow ms).filter (fun q => q.2.offset == k) :=
  ⟨sortErrors_pairwise _, fun k => filter_sortErrors _ k⟩

/-- C4 counterexample: `normalize` is not idempotent — on "a-\nb-\nc" one pass
yields "a-b-\nc" (the unwrap consumed the word character after the first
hyphen), and a second pass changes the text again to "a-b-c". -/
theorem claim_C4_counterexample :
    normalize_text (normalize_text "a-\nb-\nc".data)
      ≠ normalize_text "a-\nb-\nc".data := by decide

/-- C4 amended: over ASCII documents — where NFKC, the ligature table and the
invisible-character removal are the identity — re-applying the Normalizer is a
no-op on every input whose normalized form is a fixed point of the
hyphen-unwrap pass.  Idempotence fails in general: a hyphenated line break can
survive one pass (see the counterexample), and beyond ASCII a second NFKC pass
can recompose characters that a removed invisible character had kept apart. -/
theorem claim_C4_amended (s : Str) (hascii : ∀ c ∈ s, isAsciiChar c = true)
    (h : unwrap (normalize_text s) = normalize_text s) :
    normalize_text (normalize_text s) = normalize_text s := by
  have h1 : normalize_text s = unwrap s := normalize_ascii hascii
  have h2 : ∀ c ∈ normalize_text s, isAsciiChar c = true := by
    intro c hc
    rw [h1] at hc
    exact hascii c (mem_unwrap hc)
  rw [normalize_ascii h2, h]

/-- C4 witness: "fast-\nevolving" normalizes to "fast-evolving", on which a
second normalization is a no-op. -/
theorem claim_C4_witness :
    normalize_text (normalize_text "fast-\nevolving".data)
      = normalize_text "fast-\nevolving".data :=
  claim_C4_amended "fast-\nevolving".data (by decide) (by decide)

/-- C5 counterexample: the caret-underline string is NOT clamped to the
visible line length — for text "ab\ncd", offset 3 and length 10 the caret has
10 characters while the visible line has 2. -/
theorem claim_C5_counterexample :
    (renderLine "ab\ncd".data 3).length
      < (renderCaret "ab\ncd".data 3 10).length := by decide

/-- C5 amended: rendering never indexes out of bounds — the line bounds are
clamped inside the document (so the Python slicing never faults) and the
rendered line is a contiguous piece of the text — but the caret string is not
clamped to the visible line: it always consists of `offset - lineStart` spaces
followed by `max 1 length` carets. -/
theorem claim_C5_amended (text : Str) (offset errLen : Nat) :
    lineStartAt text offset ≤ offset
    ∧ lineStartAt text offset ≤ text.length
    ∧ lineStartAt text offset ≤ lineEndAt text offset
    ∧ lineEndAt text offset ≤ text.length
    ∧ (∃ l r, l ++ renderLine text offset ++ r = text)
    ∧ (renderCaret text offset errLen).length
        = (offset - lineStartAt text offset) + max 1 errLen := by
  obtain ⟨h1, h2⟩ := lineStartAt_le text offset
  refine ⟨h1, h2, lineStartAt_le_lineEndAt text offset,
    lineEndAt_le text offset, ?_, ?_⟩
  · set p : Char → Bool := fun c => c == '\x0d' || c == '\n' with hp
    set slice : Str :=
      (text.take (lineEndAt text offset)).drop (lineStartAt text offset)
      with hslice
    refine ⟨(text.take (lineEndAt text offset)).take (lineStartAt text offset),
      (slice.reverse.takeWhile p).reverse
        ++ text.drop (lineEndAt text offset), ?_⟩
    have hd : renderLine text offset = dropEndWhile p slice := rfl
    calc (text.take (lineEndAt text offset)).take (lineStartAt text offset)
          ++ renderLine text offset
          ++ ((slice.reverse.takeWhile p).reverse
              ++ text.drop (lineEndAt text offset))
        = (text.take (lineEndAt text offset)).take (lineStartAt text offset)
          ++ (dropEndWhile p slice ++ (slice.reverse.takeWhile p).reverse)
          ++ text.drop (lineEndAt text offset) := by
          rw [hd]
          simp [List.append_assoc]
      _ = (text.take (lineEndAt text offset)).take (lineStartAt text offset)
          ++ slice ++ text.drop (lineEndAt text offset) := by
          rw [dropEndWhile_append p slice]
      _ = text.take (lineEndAt text offset)
          ++ text.drop (lineEndAt text offset) := by
          rw [List.take_append_drop]
      _ = text := List.take_append_drop _ _
  · simp [renderCaret]

/-- C6: `offsetToLineCol` returns the 1-based pair with the line equal to one
plus the number of newlines before the offset, and the column equal to the
offset minus the index of the last newline before it (or -1); the spec's two
concrete examples on "abc\ndef\nghi" hold. -/
theorem claim_C6_line_col (text : Str) (idx : Nat) (h : idx ≤ text.length) :
    (idx_to_line_col text idx).1
      = ((List.range idx).filter
          (fun j => text.getD j ' ' == '\n')).length + 1
    ∧ (idx_to_line_col text idx).2 = (idx : Int) - lastNlSpec text idx
    ∧ idx_to_line_col "abc\ndef\nghi".data 4 = (2, 1)
    ∧ idx_to_line_col "abc\ndef\nghi".data 9 = (3, 2) := by
  refine ⟨?_, ?_, by decide, by decide⟩
  · show pyCountNl text idx + 1 = _
    rw [pyCountNl_eq_spec text idx h]
  · show (idx : Int) - pyRfindNl text idx = _
    rw [pyRfindNl_eq_spec text idx h]

/-- C6 witness: the line formula instantiated at "abc\ndef\nghi", offset 4. -/
theorem claim_C6_witness :
    (idx_to_line_col "abc\ndef\nghi".data 4).1
      = ((List.range 4).filter
          (fun j => "abc\ndef\nghi".data.getD j ' ' == '\n')).length + 1 :=
  (claim_C6_line_col "abc\ndef\nghi".data 4 (by decide)).1

/-- C7: hyphen-unwrap joins words hyphenated across a line break —
"fast-\nevolving" normalizes to "fast-evolving", "end of sentence -\nNext" is
left unchanged (the character before the hyphen is not a word character), and
in general the four-character pattern word, hyphen, newline, word loses its
newline. -/
theorem claim_C7_hyphen_unwrap :
    normalize_text "fast-\nevolving".data = "fast-evolving".data
    ∧ normalize_text "end of sentence -\nNext".data
        = "end of sentence -\nNext".data
    ∧ ∀ a b : Char, isWordChar a = true → isWordChar b = true →
        normalize_text [a, '-', '\n', b] = [a, '-', b] :=
  ⟨by decide, by decide, normalize_word_hyphen⟩

/-- C7 witness: the general pattern conjunct applied at word characters x and
y. -/
theorem claim_C7_witness :
    normalize_text ['x', '-', '\n', 'y'] = ['x', '-', 'y'] :=
  claim_C7_hyphen_unwrap.2.2 'x' 'y' (by decide) (by decide)

/-- C8: `stripNoise` keeps precisely the lines of the substituted normalized
text that contain a lowercase ASCII letter, in order — the dropped lines are
exactly those with no lowercase letter after the email/URL/phone
substitutions — and the CONTACT example line is removed entirely. -/
theorem claim_C8_noise_lines :
    (∀ s : Str,
      splitLines (strip_noise s)
        = (splitLines (phoneSub (urlSub (emailSub
            (normalize_text s))))).filter (fun ln => ln.any isLowerAlpha))
    ∧ strip_noise
        "hello resume\nCONTACT: john@x.com, +1 (555) 123-4567\nskills python".data
        = "hello resume\nskills python".data :=
  ⟨lines_strip_noise, by decide⟩

/-- C9 counterexample: a run of exactly 7 digits is NOT replaced by the phone
substitution, while a token with only 2 digits separated by six dashes IS
replaced — refuting "7 or more digits" on both sides. -/
theorem claim_C9_counterexample :
    phoneSub "1234567".data = "1234567".data
    ∧ phoneSub "1------2".data = " ".data :=
  ⟨by decide, by decide⟩

/-- C9 amended: the phone substitution replaces exactly the tokens of shape
optional "+", one digit, six or more characters drawn from digits, dashes,
whitespace and parentheses, and one final digit (so at least 8 characters and
at least 2 digits); in particular every all-digit run of length at most 7 is
left unchanged, and any digit + six-or-more middle characters + digit token
collapses to one space. -/
theorem claim_C9_amended :
    (∀ s : Str, (∀ c ∈ s, c.isDigit = true) → s.length ≤ 7 → phoneSub s = s)
    ∧ (∀ (d e : Char) (mid : Str), d.isDigit = true → e.isDigit = true →
        (∀ c ∈ mid, isPhoneMid c = true) → 6 ≤ mid.length →
        phoneSub (d :: (mid ++ [e])) = [' '])
    ∧ phoneSub "12345678".data = " ".data
    ∧ phoneSub "call 1--- ---2 now".data = "call   now".data
    ∧ phoneSub "+12345678".data = " ".data
    ∧ phoneSub "+1234567".data = "+1234567".data := by
  refine ⟨fun s h1 h2 => phoneSub_short_digits h1 h2,
    fun d e mid hd he hm hl => phoneSub_token hd he hm hl,
    by decide, by decide, by decide, by decide⟩

/-- C9 witness: the all-digit conjunct applied to the six-digit run "123456".
-/
theorem claim_C9_witness :
    phoneSub "123456".data = "123456".data :=
  claim_C9_amended.1 "123456".data (by decide) (by decide)

/-- C10: every line of the cleaned text returned by `stripNoise` contains at
least one lowercase ASCII letter. -/
theorem claim_C10_lines_lowercase (s : Str) (ln : Str)
    (h : ln ∈ splitLines (strip_noise s)) : ln.any isLowerAlpha = true := by
  rw [lines_strip_noise s] at h
  exact (List.mem_filter.mp h).2

/-- C10 witness: applied to the document "ok a\nBBB", whose surviving line
"ok a" indeed contains a lowercase letter. -/
theorem claim_C10_witness :
    ("ok a".data).any isLowerAlpha = true :=
  claim_C10_lines_lowercase "ok a\nBBB".data "ok a".data (by decide)


end CVScore
